import Mathlib

/-!
Verification of the path-resolution core of the repository: the existence
checker `has` (src/src/compat/object/has.ts) and the method invoker `invoke`
(the unnamed source file), over a shallow embedding of JavaScript values.

Machine numbers are modelled as integers (`Int`); the claims under study only
involve integral numbers.  Property keys are strings, numbers or symbols;
symbols are identified by a numeric id.  Object own properties are stored in
insertion order; prototype chains are not modelled (the source only consults
own properties via `Object.hasOwn` and plain reads on plain data).

External collaborators of the two source files (`isIndex`, `isDeepKey`,
`isArguments`, `toPath`, `toKey`, `get`, `last`) are not part of the source
tree under inspection; each is modelled from the specification, as marked in
its doc comment.
-/

set_option autoImplicit false

namespace EsToolkit

/-- A JavaScript property key: a string, a number, or a symbol (by id). -/
inductive JSKey where
  | kstr (s : String)
  | knum (n : Int)
  | ksym (id : Nat)
  deriving DecidableEq, Repr

/-- A canonical property slot name: a string name or a symbol id.  Numeric
keys are coerced to their decimal string form before any property access,
as JavaScript does. -/
abbrev JSProp := String ⊕ Nat

/-- Errors: a tokenizer parse error, a thrown user value (identified by a
code), or a TypeError raised by the runtime. -/
inductive JSErr where
  | parse (msg : String)
  | thrown (code : Nat)
  | typeError (msg : String)
  deriving DecidableEq, Repr

/-- Behaviours of the callable values appearing in the development
(defunctionalized): a two-argument adder, a function that throws, a function
returning its receiver, and a function returning its argument list. -/
inductive JSFun where
  | add2
  | raises (code : Nat)
  | retThis
  | retArgs
  deriving DecidableEq, Repr

/-- A JavaScript value: primitives, records, (possibly sparse) arrays,
arguments-like sequence wrappers, and functions carrying own properties.
A `none` entry of an array is a hole of a sparse array. -/
inductive JSVal where
  | undefined
  | null
  | bool (b : Bool)
  | num (n : Int)
  | str (s : String)
  | sym (id : Nat)
  | obj (fields : List (JSProp × JSVal))
  | arr (elems : List (Option JSVal))
  | args (elems : List (Option JSVal))
  | fn (f : JSFun) (props : List (JSProp × JSVal))

/-- Loose `== null`: true exactly for `null` and `undefined`. -/
def isNullish : JSVal → Bool
  | .null => true
  | .undefined => true
  | _ => false

/-- `Array.isArray`. -/
def isArrayV : JSVal → Bool
  | .arr _ => true
  | _ => false

/-- Modelled from the spec: `isArguments` (§6), the predicate recognizing
arguments-like sequence wrappers; its implementation is not in the source
tree.  In the model the wrappers form their own constructor. -/
def isArgumentsV : JSVal → Bool
  | .args _ => true
  | _ => false

/-- `typeof v === "object"`, which in JavaScript holds for `null`, plain
objects, arrays and arguments objects, and fails for functions and the
other primitives. -/
def isTypeofObject : JSVal → Bool
  | .null => true
  | .obj _ => true
  | .arr _ => true
  | .args _ => true
  | _ => false

/-- The `length` of an array-like value. -/
def lenOf : JSVal → Nat
  | .arr es => es.length
  | .args es => es.length
  | .str s => s.length
  | _ => 0

/-- A string of the form admitted as an unsigned integer index: `"0"`, or a
nonzero digit followed by digits. -/
def isUnsignedIntString (s : String) : Bool :=
  match s.toList with
  | [] => false
  | ['0'] => true
  | c :: cs => (c.isDigit && c != '0') && cs.all Char.isDigit

/-- Numeric value of a digit string (by structural recursion, so that all
definitions evaluate by kernel reduction). -/
def digitsVal (cs : List Char) : Nat :=
  cs.foldl (fun acc c => acc * 10 + (c.toNat - 48)) 0

/-- The index denoted by a canonical unsigned-integer string, if any. -/
def unsIndex? (s : String) : Option Nat :=
  if isUnsignedIntString s then some (digitsVal s.toList) else none

/-- Modelled from the spec: the Index Classifier `isIndex` (§4.1), not in
the source tree.  True iff the key can serve as a non-negative integer array
index: a non-negative integral number below `2^53 - 1`, or a numeric string
with no sign, no leading zero (except `"0"`), denoting such a number.
Numbers are modelled as integers, so integrality is by construction. -/
def isIndex : JSKey → Bool
  | .knum n => decide (0 ≤ n) && decide (n < 9007199254740991)
  | .kstr s => isUnsignedIntString s && decide (digitsVal s.toList < 9007199254740991)
  | .ksym _ => false

/-- Coerce a property key to its canonical slot name, as JavaScript property
access does: numbers become their decimal string. -/
def canonProp : JSKey → JSProp
  | .kstr s => .inl s
  | .knum n => .inl (toString n)
  | .ksym i => .inr i

/-- First binding of a slot in an own-property list. -/
def lookupProps : List (JSProp × JSVal) → JSProp → Option JSVal
  | [], _ => none
  | (p, v) :: rest, q => if p = q then some v else lookupProps rest q

/-- Indexed read on an array-like element list, by canonical slot name:
canonical indices hit the elements (a hole reads as `undefined`),
`"length"` reads the length. -/
def seqGetP (elems : List (Option JSVal)) : JSProp → JSVal
  | .inl n =>
    if n = "length" then .num elems.length
    else
      match unsIndex? n with
      | some i => ((elems[i]?).getD none).getD .undefined
      | none => .undefined
  | .inr _ => .undefined

/-- Indexed read on an array-like element list. -/
def seqGet (elems : List (Option JSVal)) (k : JSKey) : JSVal :=
  seqGetP elems (canonProp k)

/-- Own-property test on an array-like element list, by canonical slot
name: `"length"` is an own property, an index is one exactly when it is in
range and not a hole. -/
def seqHasOwnP (elems : List (Option JSVal)) : JSProp → Bool
  | .inl n =>
    if n = "length" then true
    else
      match unsIndex? n with
      | some i => ((elems[i]?).getD none).isSome
      | none => false
  | .inr _ => false

/-- Own-property test on an array-like element list. -/
def seqHasOwn (elems : List (Option JSVal)) (k : JSKey) : Bool :=
  seqHasOwnP elems (canonProp k)

/-- Indexed read on a string, by canonical slot name: characters and
`"length"`. -/
def strGetP (s : String) : JSProp → JSVal
  | .inl n =>
    if n = "length" then .num s.length
    else
      match unsIndex? n with
      | some i =>
        match s.toList[i]? with
        | some c => .str (String.mk [c])
        | none => .undefined
      | none => .undefined
  | .inr _ => .undefined

/-- Indexed read on a string. -/
def strGetK (s : String) (k : JSKey) : JSVal :=
  strGetP s (canonProp k)

/-- Own-property test on a string, by canonical slot name: in-range
character indices and `"length"`. -/
def strHasOwnP (s : String) : JSProp → Bool
  | .inl n =>
    if n = "length" then true
    else
      match unsIndex? n with
      | some i => (s.toList[i]?).isSome
      | none => false
  | .inr _ => false

/-- Own-property test on a string. -/
def strHasOwnK (s : String) (k : JSKey) : Bool :=
  strHasOwnP s (canonProp k)

/-- Property read `v[k]` on a non-nullish value (callers guard nullish
receivers, as the source does). -/
def getProp : JSVal → JSKey → JSVal
  | .obj fields, k => (lookupProps fields (canonProp k)).getD .undefined
  | .arr elems, k => seqGet elems k
  | .args elems, k => seqGet elems k
  | .fn _ props, k => (lookupProps props (canonProp k)).getD .undefined
  | .str s, k => strGetK s k
  | _, _ => .undefined

/-- `Object.hasOwn(v, k)`.  Number and boolean primitives wrap to objects
with no own properties; built-in function properties such as `name` are not
modelled. -/
def hasOwn : JSVal → JSKey → Bool
  | .obj fields, k => (lookupProps fields (canonProp k)).isSome
  | .arr elems, k => seqHasOwn elems k
  | .args elems, k => seqHasOwn elems k
  | .fn _ props, k => (lookupProps props (canonProp k)).isSome
  | .str s, k => strHasOwnK s k
  | _, _ => false

/-- Modelled from the spec: `isDeepKey` (§4.2), not in the source tree.
A string is a deep key iff it contains path-delimiter syntax: a dot or a
bracket. -/
def isDeepKey (s : String) : Bool :=
  s.toList.any fun c => c == '.' || c == '[' || c == ']'

/-- Scanner state of the tokenizer: inside a plain segment, inside a bracket
segment (recording whether its content was quoted), or inside a quoted
bracket segment with the given quote character. -/
inductive ScanMode where
  | sg
  | brk (wasQuoted : Bool)
  | quo (q : Char)
  deriving DecidableEq, Repr

/-- Append the pending plain segment as a token, dropping empty segments
(leading or consecutive dots produce no token). -/
def pushSeg (seg : List Char) (acc : List JSKey) : List JSKey :=
  if seg.isEmpty then acc else acc ++ [JSKey.kstr (String.mk seg)]

/-- Classify an unquoted bracket segment: a numeric index token when it
satisfies the Index Classifier, otherwise a plain string token. -/
def classifyBracket (seg : List Char) : JSKey :=
  let s := String.mk seg
  if isIndex (.kstr s) then .knum (digitsVal seg) else .kstr s

/-- One-character-at-a-time scanner of the tokenizer grammar. -/
def toPathGo : List Char → ScanMode → List Char → List JSKey → Except JSErr (List JSKey)
  | [], .sg, seg, acc => .ok (pushSeg seg acc)
  | [], .brk _, _, _ => .error (.parse "unterminated bracket segment")
  | [], .quo _, _, _ => .error (.parse "unterminated bracket segment")
  | '\\' :: d :: ds, .sg, seg, acc =>
    if d = '.' || d = '[' || d = ']' then toPathGo ds .sg (seg ++ [d]) acc
    else toPathGo (d :: ds) .sg (seg ++ ['\\']) acc
  | ['\\'], .sg, seg, acc => .ok (pushSeg (seg ++ ['\\']) acc)
  | c :: cs, .sg, seg, acc =>
    if c = '.' then toPathGo cs .sg [] (pushSeg seg acc)
    else if c = '[' then toPathGo cs (.brk false) [] (pushSeg seg acc)
    else toPathGo cs .sg (seg ++ [c]) acc
  | c :: cs, .brk wasQuoted, seg, acc =>
    if c = ']' then
      toPathGo cs .sg []
        (acc ++ [if wasQuoted then .kstr (String.mk seg) else classifyBracket seg])
    else if (c = '\'' || c = '"') && seg.isEmpty && !wasQuoted then
      toPathGo cs (.quo c) [] acc
    else toPathGo cs (.brk wasQuoted) (seg ++ [c]) acc
  | c :: cs, .quo q, seg, acc =>
    if c = q then toPathGo cs (.brk true) seg acc
    else toPathGo cs (.quo q) (seg ++ [c]) acc

/-- Modelled from the spec: the Path Tokenizer `toPath` (§4.2), not in the
source tree.  Parses left to right: runs without `.` or `[` are plain string
tokens; `[...]` segments are literal string tokens when quoted and index or
string tokens when not; `.` separates segments and produces no empty tokens;
a backslash escapes a delimiter inside a plain segment; an unterminated
bracket fails with a ParseError. -/
def toPath (path : String) : Except JSErr (List JSKey) :=
  toPathGo path.toList .sg [] []

/-- The JavaScript comparison `key < length` as used in the sparse-index
check of `has`; only reached for keys accepted by the Index Classifier, so a
string key is a canonical unsigned-integer string. -/
def keyLtLen (k : JSKey) (len : Nat) : Bool :=
  match k with
  | .knum n => decide (n < (len : Int))
  | .kstr s => decide (digitsVal s.toList < len)
  | .ksym _ => false

/-- The sparse-index exception of `has` (has.ts line 109): the target is an
array or an arguments object, the key is an index, and the key is strictly
below the declared length. -/
def sparseIndexOk (current : JSVal) (k : JSKey) : Bool :=
  (isArrayV current || isArgumentsV current) && isIndex k && keyLtLen k (lenOf current)

/-- The traversal loop of `has` (has.ts lines 104-117): each key must be an
own property of the current target, or satisfy the sparse-index exception;
otherwise the walk fails. -/
def hasWalk : JSVal → List JSKey → Bool
  | _, [] => true
  | current, k :: rest =>
    if (isNullish current || !hasOwn current k) && !sparseIndexOk current k then false
    else hasWalk (getProp current k) rest

/-- `has` restricted to an already-resolved key sequence: an empty sequence
yields `false` (has.ts lines 98-100), otherwise the walk runs. -/
def hasPath (object : JSVal) (ks : List JSKey) : Bool :=
  if ks.isEmpty then false else hasWalk object ks

/-- The optional-chaining direct lookup `object?.[path]`. -/
def getDirect (o : JSVal) (k : JSKey) : JSVal :=
  if isNullish o then .undefined else getProp o k

/-- A path argument as accepted by `has` and `invoke`: a single property key
or a sequence of property keys (a string key may be a deep path). -/
inductive PathArg where
  | single (k : JSKey)
  | seq (ks : List JSKey)
  deriving DecidableEq, Repr

/-- The existence checker `has` (has.ts lines 87-120).  A key-sequence path
is used as is; a string path that is a deep key whose direct lookup is
nullish is tokenized (a tokenizer error propagates, as the source has no
handler); any other single key becomes a one-element sequence. -/
def has (object : JSVal) (path : PathArg) : Except JSErr Bool :=
  match path with
  | .seq ks => .ok (hasPath object ks)
  | .single (.kstr s) =>
    if isDeepKey s && isNullish (getDirect object (.kstr s)) then
      match toPath s with
      | .error e => .error e
      | .ok ks => .ok (hasPath object ks)
    else .ok (hasPath object [.kstr s])
  | .single (.knum n) => .ok (hasPath object [.knum n])
  | .single (.ksym i) => .ok (hasPath object [.ksym i])

/-- `args.flat(1)`: each argument that is an array is spliced in (its holes
dropped, as `flat` drops empty slots); arguments objects and all other
values are kept as they are. -/
def flat1 : List JSVal → List JSVal
  | [] => []
  | .arr es :: rest => es.filterMap id ++ flat1 rest
  | v :: rest => v :: flat1 rest

/-- Modelled from the spec: `toKey` (§6), not in the source tree:
canonicalizes a numeric value into its string property-key form.  Numbers
are modelled as integers, whose canonical form is the decimal string. -/
def toKey (n : Int) : String := toString n

/-- `String(sym)` for a symbol, as produced by the explicit `String(...)`
conversion (which, unlike implicit coercion, accepts symbols). -/
def symToString (i : Nat) : String := "Symbol(" ++ toString i ++ ")"

/-- The last-token normalization of `invokeImpl` (source lines 63-70):
`lastKey?.valueOf()` on a primitive key returns the key itself, so the
primitive value is a number exactly for a numeric key, which goes through
`toKey`; every other case goes through `String(...)` — a missing last token
(empty path) becomes the literal string `"undefined"`. -/
def normalizeLast (lastTok : Option JSKey) : String :=
  match lastTok with
  | some (.knum n) => toKey n
  | some (.kstr s) => s
  | some (.ksym i) => symToString i
  | none => "undefined"

/-- Walk of the Path Value Accessor: a nullish intermediate target yields
the default, and a final `undefined` yields the default. -/
def getWalk : JSVal → List JSKey → JSVal → JSVal
  | current, [], dflt =>
    match current with
    | .undefined => dflt
    | c => c
  | current, k :: rest, dflt =>
    if isNullish current then dflt else getWalk (getProp current k) rest dflt

/-- Modelled from the spec: the Path Value Accessor `get` (§6, §4.4 step 4),
not in the source tree.  Resolves an ordered key sequence against a value;
an empty sequence yields the default (so the parent of an empty parent path
defaults to the object itself), and any nullish intermediate step or a final
`undefined` yields the default. -/
def getPath (object : JSVal) (path : List JSKey) (dflt : JSVal) : JSVal :=
  if path.isEmpty then dflt else getWalk object path dflt

/-- The parent container resolved by `invokeImpl` (source line 57):
`get(object, path.slice(0, -1), object)`. -/
def parentOf (object : JSVal) (ks : List JSKey) : JSVal :=
  getPath object ks.dropLast object

/-- The member resolved by `invokeImpl` (source lines 63-72): the normalized
last token looked up on the parent via the accessor.  `last(path)` is the
spec's sequence-last helper (§6), `List.getLast?` here. -/
def memberOf (object : JSVal) (ks : List JSKey) : JSVal :=
  getPath (parentOf object ks) [.kstr (normalizeLast ks.getLast?)] .undefined

/-- Call one of the defunctionalized function behaviours with a receiver
and an argument list. -/
def callFn : JSFun → JSVal → List JSVal → Except JSErr JSVal
  | .add2, _, a =>
    match a with
    | .num x :: .num y :: _ => .ok (.num (x + y))
    | _ => .ok .undefined
  | .raises code, _, _ => .error (.thrown code)
  | .retThis, self, _ => .ok self
  | .retArgs, _, a => .ok (.arr (a.map some))

/-- `func?.apply(parent, args)` (source line 74): a nullish member yields
`undefined` by optional chaining; a function is applied with the parent as
receiver; any other value has no `apply` method, so the call raises a
TypeError. -/
def applyMember (func receiver : JSVal) (args : List JSVal) : Except JSErr JSVal :=
  match func with
  | .undefined => .ok .undefined
  | .null => .ok .undefined
  | .fn f _ => callFn f receiver args
  | _ => .error (.typeError "func.apply is not a function")

/-- `invokeImpl` (source lines 56-75): resolve the parent, return
`undefined` when it is nullish, otherwise apply the member found under the
normalized last key. -/
def invokeImpl (object : JSVal) (ks : List JSKey) (args : List JSVal) : Except JSErr JSVal :=
  if isNullish (parentOf object ks) then .ok .undefined
  else applyMember (memberOf object ks) (parentOf object ks) args

/-- The body of `invoke` after argument flattening (source lines 29-53):
nullish objects yield `undefined`; a string path that is an own property of
an object-typed target is taken as a single token, any other string path is
tokenized (a tokenizer error propagates); number and symbol paths become
single tokens; an array path is used as is. -/
def invokeCore (object : JSVal) (path : PathArg) (args : List JSVal) : Except JSErr JSVal :=
  if isNullish object then .ok .undefined
  else
    match path with
    | .single (.kstr s) =>
      if isTypeofObject object && hasOwn object (.kstr s) then
        invokeImpl object [.kstr s] args
      else
        match toPath s with
        | .error e => .error e
        | .ok ks => invokeImpl object ks args
    | .single (.knum n) => invokeImpl object [.knum n] args
    | .single (.ksym i) => invokeImpl object [.ksym i] args
    | .seq ks => invokeImpl object ks args

/-- The method invoker `invoke` (source lines 26-54): the rest arguments are
flattened one level, then the body runs. -/
def invoke (object : JSVal) (path : PathArg) (args : List JSVal) : Except JSErr JSVal :=
  invokeCore object path (flat1 args)

/-!
Heap-based model for the frame (no-mutation) claim.  The target structure
lives in an explicit heap of addressed objects, and every operation is
transcribed so that it takes the heap and returns it alongside its result;
a mutating transcription would return an updated heap, so the theorem that
the returned heap equals the input heap expresses that the source performs
a read-only traversal.
-/

/-- A heap value: a primitive, or a reference to an addressed object. -/
inductive HVal where
  | undefined
  | null
  | boolH (b : Bool)
  | numH (n : Int)
  | strH (s : String)
  | symH (id : Nat)
  | ref (addr : Nat)
  deriving DecidableEq, Repr

/-- An addressed heap object: record, (possibly sparse) array, arguments
wrapper, or function with own properties. -/
inductive HObj where
  | objH (fields : List (JSProp × HVal))
  | arrH (elems : List (Option HVal))
  | argsH (elems : List (Option HVal))
  | fnH (f : JSFun) (props : List (JSProp × HVal))
  deriving DecidableEq, Repr

/-- A heap: a finite map from addresses to objects. -/
abbrev Heap := List (Nat × HObj)

/-- Address lookup. -/
def heapFind : Heap → Nat → Option HObj
  | [], _ => none
  | (a, o) :: rest, b => if a = b then some o else heapFind rest b

/-- First binding of a slot in a heap own-property list. -/
def lookupPropsH : List (JSProp × HVal) → JSProp → Option HVal
  | [], _ => none
  | (p, v) :: rest, q => if p = q then some v else lookupPropsH rest q

/-- Loose `== null` on heap values. -/
def isNullishH : HVal → Bool
  | .null => true
  | .undefined => true
  | _ => false

/-- Indexed read on a heap element list. -/
def seqGetH (elems : List (Option HVal)) (k : JSKey) : HVal :=
  match canonProp k with
  | .inl n =>
    if n = "length" then .numH elems.length
    else
      match unsIndex? n with
      | some i => ((elems[i]?).getD none).getD .undefined
      | none => .undefined
  | .inr _ => .undefined

/-- Own-property test on a heap element list. -/
def seqHasOwnH (elems : List (Option HVal)) (k : JSKey) : Bool :=
  match canonProp k with
  | .inl n =>
    if n = "length" then true
    else
      match unsIndex? n with
      | some i => ((elems[i]?).getD none).isSome
      | none => false
  | .inr _ => false

/-- Indexed read on a string, heap version. -/
def strGetHK (s : String) (k : JSKey) : HVal :=
  match canonProp k with
  | .inl n =>
    if n = "length" then .numH s.length
    else
      match unsIndex? n with
      | some i =>
        match s.toList[i]? with
        | some c => .strH (String.mk [c])
        | none => .undefined
      | none => .undefined
  | .inr _ => .undefined

/-- Property read `v[k]` through the heap (a pure read). -/
def getPropH (h : Heap) (v : HVal) (k : JSKey) : HVal :=
  match v with
  | .ref a =>
    match heapFind h a with
    | some (.objH fields) => (lookupPropsH fields (canonProp k)).getD .undefined
    | some (.arrH es) => seqGetH es k
    | some (.argsH es) => seqGetH es k
    | some (.fnH _ props) => (lookupPropsH props (canonProp k)).getD .undefined
    | none => .undefined
  | .strH s => strGetHK s k
  | _ => .undefined

/-- `Object.hasOwn` through the heap (a pure read). -/
def hasOwnH (h : Heap) (v : HVal) (k : JSKey) : Bool :=
  match v with
  | .ref a =>
    match heapFind h a with
    | some (.objH fields) => (lookupPropsH fields (canonProp k)).isSome
    | some (.arrH es) => seqHasOwnH es k
    | some (.argsH es) => seqHasOwnH es k
    | some (.fnH _ props) => (lookupPropsH props (canonProp k)).isSome
    | none => false
  | .strH s => strHasOwnK s k
  | _ => false

/-- `Array.isArray` through the heap. -/
def isArrayH (h : Heap) (v : HVal) : Bool :=
  match v with
  | .ref a =>
    match heapFind h a with
    | some (.arrH _) => true
    | _ => false
  | _ => false

/-- `isArguments` through the heap. -/
def isArgumentsH (h : Heap) (v : HVal) : Bool :=
  match v with
  | .ref a =>
    match heapFind h a with
    | some (.argsH _) => true
    | _ => false
  | _ => false

/-- `typeof v === "object"` through the heap. -/
def isTypeofObjectH (h : Heap) (v : HVal) : Bool :=
  match v with
  | .null => true
  | .ref a =>
    match heapFind h a with
    | some (.fnH _ _) => false
    | some _ => true
    | none => false
  | _ => false

/-- `length` of an array-like heap value. -/
def lenOfH (h : Heap) (v : HVal) : Nat :=
  match v with
  | .ref a =>
    match heapFind h a with
    | some (.arrH es) => es.length
    | some (.argsH es) => es.length
    | _ => 0
  | .strH s => s.length
  | _ => 0

/-- Sparse-index exception through the heap. -/
def sparseIndexOkH (h : Heap) (current : HVal) (k : JSKey) : Bool :=
  (isArrayH h current || isArgumentsH h current) && isIndex k && keyLtLen k (lenOfH h current)

/-- Traversal loop of `has`, threading the heap through every step. -/
def hasWalkH : Heap → HVal → List JSKey → Bool × Heap
  | h, _, [] => (true, h)
  | h, current, k :: rest =>
    if (isNullishH current || !hasOwnH h current k) && !sparseIndexOkH h current k then (false, h)
    else hasWalkH h (getPropH h current k) rest

/-- Resolved-sequence `has`, heap version. -/
def hasPathH (h : Heap) (object : HVal) (ks : List JSKey) : Bool × Heap :=
  if ks.isEmpty then (false, h) else hasWalkH h object ks

/-- Direct lookup `object?.[path]`, heap version. -/
def getDirectH (h : Heap) (o : HVal) (k : JSKey) : HVal :=
  if isNullishH o then .undefined else getPropH h o k

/-- The existence checker `has`, heap version. -/
def hasH (h : Heap) (object : HVal) (path : PathArg) : Except JSErr Bool × Heap :=
  match path with
  | .seq ks =>
    let r := hasPathH h object ks
    (.ok r.1, r.2)
  | .single (.kstr s) =>
    if isDeepKey s && isNullishH (getDirectH h object (.kstr s)) then
      match toPath s with
      | .error e => (.error e, h)
      | .ok ks =>
        let r := hasPathH h object ks
        (.ok r.1, r.2)
    else
      let r := hasPathH h object [.kstr s]
      (.ok r.1, r.2)
  | .single (.knum n) =>
    let r := hasPathH h object [.knum n]
    (.ok r.1, r.2)
  | .single (.ksym i) =>
    let r := hasPathH h object [.ksym i]
    (.ok r.1, r.2)

/-- Accessor walk, heap version. -/
def getWalkH : Heap → HVal → List JSKey → HVal → HVal × Heap
  | h, current, [], dflt =>
    (match current with
     | .undefined => dflt
     | c => c, h)
  | h, current, k :: rest, dflt =>
    if isNullishH current then (dflt, h) else getWalkH h (getPropH h current k) rest dflt

/-- Accessor, heap version. -/
def getPathH (h : Heap) (object : HVal) (path : List JSKey) (dflt : HVal) : HVal × Heap :=
  if path.isEmpty then (dflt, h) else getWalkH h object path dflt

/-- Callee behaviours, heap version.  None of the defunctionalized callees
writes to the heap; the value returned by `retArgs` (a freshly allocated
array, which never aliases the existing target structure) is left opaque,
as only the heap effect matters here. -/
def callFnH (h : Heap) (f : JSFun) (self : HVal) (args : List HVal) : Except JSErr HVal × Heap :=
  match f with
  | .add2 =>
    match args with
    | .numH x :: .numH y :: _ => (.ok (.numH (x + y)), h)
    | _ => (.ok .undefined, h)
  | .raises code => (.error (.thrown code), h)
  | .retThis => (.ok self, h)
  | .retArgs => (.ok .undefined, h)

/-- `func?.apply(parent, args)`, heap version. -/
def applyMemberH (h : Heap) (func receiver : HVal) (args : List HVal) : Except JSErr HVal × Heap :=
  match func with
  | .undefined => (.ok .undefined, h)
  | .null => (.ok .undefined, h)
  | .ref a =>
    match heapFind h a with
    | some (.fnH f _) => callFnH h f receiver args
    | _ => (.error (.typeError "func.apply is not a function"), h)
  | _ => (.error (.typeError "func.apply is not a function"), h)

/-- `invokeImpl`, heap version, threading the heap through parent
resolution, member resolution, and the call. -/
def invokeImplH (h : Heap) (object : HVal) (ks : List JSKey) (args : List HVal) : Except JSErr HVal × Heap :=
  let p := getPathH h object ks.dropLast object
  if isNullishH p.1 then (.ok .undefined, p.2)
  else
    let m := getPathH p.2 p.1 [.kstr (normalizeLast ks.getLast?)] .undefined
    applyMemberH m.2 m.1 p.1 args

/-- `args.flat(1)`, heap version: arrays are spliced by reading the heap
(a pure read), everything else is kept. -/
def flat1H (h : Heap) : List HVal → List HVal
  | [] => []
  | v :: rest =>
    match v with
    | .ref a =>
      match heapFind h a with
      | some (.arrH es) => es.filterMap id ++ flat1H h rest
      | _ => v :: flat1H h rest
    | _ => v :: flat1H h rest

/-- Body of `invoke`, heap version. -/
def invokeCoreH (h : Heap) (object : HVal) (path : PathArg) (args : List HVal) : Except JSErr HVal × Heap :=
  if isNullishH object then (.ok .undefined, h)
  else
    match path with
    | .single (.kstr s) =>
      if isTypeofObjectH h object && hasOwnH h object (.kstr s) then
        invokeImplH h object [.kstr s] args
      else
        match toPath s with
        | .error e => (.error e, h)
        | .ok ks => invokeImplH h object ks args
    | .single (.knum n) => invokeImplH h object [.knum n] args
    | .single (.ksym i) => invokeImplH h object [.ksym i] args
    | .seq ks => invokeImplH h object ks args

/-- The method invoker `invoke`, heap version. -/
def invokeH (h : Heap) (object : HVal) (path : PathArg) (args : List HVal) : Except JSErr HVal × Heap :=
  invokeCoreH h object path (flat1H h args)

/-! Helper lemmas. -/

theorem lookupProps_defined_isSome (l : List (JSProp × JSVal)) (p : JSProp)
    (h : isNullish ((lookupProps l p).getD .undefined) = false) :
    (lookupProps l p).isSome = true := by
  cases hl : lookupProps l p with
  | none => rw [hl] at h; simp [isNullish] at h
  | some v => simp

theorem seqGetP_defined_hasOwn (es : List (Option JSVal)) (p : JSProp)
    (h : isNullish (seqGetP es p) = false) : seqHasOwnP es p = true := by
  cases p with
  | inr i => simp [seqGetP, isNullish] at h
  | inl n =>
    by_cases hn : n = "length"
    · simp [seqHasOwnP, hn]
    · simp only [seqGetP, if_neg hn] at h
      simp only [seqHasOwnP, if_neg hn]
      cases hu : unsIndex? n with
      | none => rw [hu] at h; simp [isNullish] at h
      | some j =>
        rw [hu] at h
        have h2 : isNullish (((es[j]?).getD none).getD .undefined) = false := h
        show ((es[j]?).getD none).isSome = true
        cases he : (es[j]?).getD none with
        | none => rw [he] at h2; simp [isNullish] at h2
        | some v => simp [he]

theorem strGetP_defined_hasOwn (s : String) (p : JSProp)
    (h : isNullish (strGetP s p) = false) : strHasOwnP s p = true := by
  cases p with
  | inr i => simp [strGetP, isNullish] at h
  | inl n =>
    by_cases hn : n = "length"
    · simp [strHasOwnP, hn]
    · simp only [strGetP, if_neg hn] at h
      simp only [strHasOwnP, if_neg hn]
      cases hu : unsIndex? n with
      | none => rw [hu] at h; simp [isNullish] at h
      | some j =>
        rw [hu] at h
        have h2 :
            isNullish (match s.toList[j]? with
              | some c => JSVal.str (String.mk [c])
              | none => .undefined) = false := h
        show (s.toList[j]?).isSome = true
        cases he : s.toList[j]? with
        | none => rw [he] at h2; simp [isNullish] at h2
        | some c => simp [he]

theorem getProp_defined_hasOwn (o : JSVal) (k : JSKey)
    (h : isNullish (getProp o k) = false) : hasOwn o k = true := by
  cases o with
  | obj fields => exact lookupProps_defined_isSome fields (canonProp k) h
  | fn f props => exact lookupProps_defined_isSome props (canonProp k) h
  | arr es => exact seqGetP_defined_hasOwn es (canonProp k) h
  | args es => exact seqGetP_defined_hasOwn es (canonProp k) h
  | str s => exact strGetP_defined_hasOwn s (canonProp k) h
  | undefined => simp [getProp, isNullish] at h
  | null => simp [getProp, isNullish] at h
  | bool b => simp [getProp, isNullish] at h
  | num n => simp [getProp, isNullish] at h
  | sym i => simp [getProp, isNullish] at h

theorem hasWalk_nullish (current : JSVal) (k : JSKey) (rest : List JSKey)
    (h : isNullish current = true) : hasWalk current (k :: rest) = false := by
  cases current <;> simp [isNullish] at h <;>
    simp [hasWalk, isNullish, sparseIndexOk, isArrayV, isArgumentsV]

theorem hasPath_nullish (o : JSVal) (ks : List JSKey) (h : isNullish o = true) :
    hasPath o ks = false := by
  cases ks with
  | nil => rfl
  | cons k rest => simp [hasPath, hasWalk_nullish _ k rest h]

theorem hasPath_single_defined (o : JSVal) (k : JSKey)
    (h : isNullish (getDirect o k) = false) : hasPath o [k] = true := by
  have ho : isNullish o = false := by
    unfold getDirect at h
    cases hn : isNullish o with
    | false => rfl
    | true => rw [hn] at h; simp [isNullish] at h
  have hp : isNullish (getProp o k) = false := by
    unfold getDirect at h
    rw [ho] at h
    simpa using h
  have hown := getProp_defined_hasOwn o k hp
  simp [hasPath, hasWalk, ho, hown]

theorem hasWalkH_frame (ks : List JSKey) (h : Heap) (v : HVal) :
    (hasWalkH h v ks).2 = h := by
  induction ks generalizing v with
  | nil => rfl
  | cons k rest ih =>
    unfold hasWalkH
    split
    · rfl
    · exact ih (getPropH h v k)

theorem hasPathH_frame (h : Heap) (v : HVal) (ks : List JSKey) :
    (hasPathH h v ks).2 = h := by
  unfold hasPathH
  split
  · rfl
  · exact hasWalkH_frame ks h v

theorem hasH_frame (h : Heap) (v : HVal) (p : PathArg) : (hasH h v p).2 = h := by
  cases p with
  | seq ks => exact hasPathH_frame h v ks
  | single k =>
    cases k with
    | kstr s =>
      simp only [hasH]
      split
      · cases toPath s with
        | error e => rfl
        | ok ks => exact hasPathH_frame h v ks
      · exact hasPathH_frame h v _
    | knum n => exact hasPathH_frame h v _
    | ksym i => exact hasPathH_frame h v _

theorem getWalkH_frame (ks : List JSKey) (h : Heap) (v d : HVal) :
    (getWalkH h v ks d).2 = h := by
  induction ks generalizing v with
  | nil => rfl
  | cons k rest ih =>
    unfold getWalkH
    split
    · rfl
    · exact ih (getPropH h v k)

theorem getPathH_frame (h : Heap) (v : HVal) (ks : List JSKey) (d : HVal) :
    (getPathH h v ks d).2 = h := by
  unfold getPathH
  split
  · rfl
  · exact getWalkH_frame ks h v d

theorem callFnH_frame (h : Heap) (f : JSFun) (v : HVal) (a : List HVal) :
    (callFnH h f v a).2 = h := by
  cases f with
  | add2 =>
    simp only [callFnH]
    split <;> rfl
  | raises code => rfl
  | retThis => rfl
  | retArgs => rfl

theorem applyMemberH_frame (h : Heap) (f v : HVal) (a : List HVal) :
    (applyMemberH h f v a).2 = h := by
  cases f with
  | ref adr =>
    simp only [applyMemberH]
    split
    · exact callFnH_frame h _ v a
    · rfl
  | undefined => rfl
  | null => rfl
  | boolH b => rfl
  | numH n => rfl
  | strH s => rfl
  | symH i => rfl

theorem invokeImplH_frame (h : Heap) (v : HVal) (ks : List JSKey) (a : List HVal) :
    (invokeImplH h v ks a).2 = h := by
  unfold invokeImplH
  dsimp only
  have hp := getPathH_frame h v ks.dropLast v
  split
  · exact hp
  · rw [hp]
    have hm := getPathH_frame h (getPathH h v ks.dropLast v).1
      [JSKey.kstr (normalizeLast ks.getLast?)] HVal.undefined
    rw [hm]
    exact applyMemberH_frame h _ _ a

theorem invokeCoreH_frame (h : Heap) (v : HVal) (p : PathArg) (a : List HVal) :
    (invokeCoreH h v p a).2 = h := by
  cases p with
  | seq ks =>
    simp only [invokeCoreH]
    split
    · rfl
    · exact invokeImplH_frame h v ks a
  | single k =>
    cases k with
    | kstr s =>
      simp only [invokeCoreH]
      split
      · rfl
      · split
        · exact invokeImplH_frame h v _ a
        · cases toPath s with
          | error e => rfl
          | ok ks => exact invokeImplH_frame h v ks a
    | knum n =>
      simp only [invokeCoreH]
      split
      · rfl
      · exact invokeImplH_frame h v _ a
    | ksym i =>
      simp only [invokeCoreH]
      split
      · rfl
      · exact invokeImplH_frame h v _ a

theorem invokeH_frame (h : Heap) (v : HVal) (p : PathArg) (a : List HVal) :
    (invokeH h v p a).2 = h := invokeCoreH_frame h v p (flat1H h a)

/-! Claim theorems. -/

/-- C1: during the walk of `has`, whenever the current target is nullish or
the token is not an own property of it, the walk returns false unless the
current target is an array or an arguments-like wrapper AND the token passes
the Index Classifier AND the token is strictly below the target's length, in
which case the step is treated as satisfied and the walk continues; in
particular `has([, , 3], 1)` is true and `has([, , 3], 5)` is false. -/
theorem has_sparse_step (current : JSVal) (k : JSKey) (rest : List JSKey)
    (h : isNullish current = true ∨ hasOwn current k = false) :
    (sparseIndexOk current k = false → hasWalk current (k :: rest) = false)
    ∧ (sparseIndexOk current k = true →
        hasWalk current (k :: rest) = hasWalk (getProp current k) rest)
    ∧ has (.arr [none, none, some (.num 3)]) (.single (.knum 1)) = .ok true
    ∧ has (.arr [none, none, some (.num 3)]) (.single (.knum 5)) = .ok false := by
  have hcond : (isNullish current || !hasOwn current k) = true := by
    rcases h with h | h <;> simp [h]
  refine ⟨?_, ?_, rfl, rfl⟩
  · intro hs
    simp [hasWalk, hcond, hs]
  · intro hs
    simp [hasWalk, hcond, hs]

/-- Witness for `has_sparse_step`: a hole of `[,]` at index 0 is not an own
property, yet the sparse-index exception applies and the walk continues. -/
theorem has_sparse_step_inst :
    hasOwn (JSVal.arr [none]) (.knum 0) = false
    ∧ sparseIndexOk (JSVal.arr [none]) (.knum 0) = true
    ∧ hasWalk (JSVal.arr [none]) [.knum 0]
        = hasWalk (getProp (JSVal.arr [none]) (.knum 0)) [] := by
  refine ⟨rfl, rfl, ?_⟩
  exact (has_sparse_step (JSVal.arr [none]) (.knum 0) [] (Or.inr rfl)).2.1 rfl

/-- C2: `has` normalizes its path before walking: a key sequence is used as
is; a string that is a deep key whose direct lookup `object[path]` is
nullish is tokenized via `toPath`; every other single key becomes a
one-element sequence — in particular a flat own property whose name contains
dots, holding a defined value, resolves by the direct lookup (the check
succeeds) and is never tokenized as a deep path. -/
theorem has_normalization_policy (o : JSVal) (s : String) (ks : List JSKey)
    (n : Int) (i : Nat) :
    has o (.seq ks) = .ok (hasPath o ks)
    ∧ (isDeepKey s = true → isNullish (getDirect o (.kstr s)) = true →
        has o (.single (.kstr s)) = (toPath s).map (hasPath o))
    ∧ (isNullish (getDirect o (.kstr s)) = false →
        has o (.single (.kstr s)) = .ok (hasPath o [.kstr s])
        ∧ has o (.single (.kstr s)) = .ok true)
    ∧ (isDeepKey s = false → has o (.single (.kstr s)) = .ok (hasPath o [.kstr s]))
    ∧ has o (.single (.knum n)) = .ok (hasPath o [.knum n])
    ∧ has o (.single (.ksym i)) = .ok (hasPath o [.ksym i]) := by
  refine ⟨rfl, ?_, ?_, ?_, rfl, rfl⟩
  · intro hd hnull
    have hc : (isDeepKey s && isNullish (getDirect o (.kstr s))) = true := by
      simp [hd, hnull]
    simp only [has, hc, if_true]
    cases toPath s with
    | error e => rfl
    | ok ks2 => rfl
  · intro hnull
    have hc : (isDeepKey s && isNullish (getDirect o (.kstr s))) = false := by
      simp [hnull]
    refine ⟨by simp [has, hc], ?_⟩
    simp [has, hc, hasPath_single_defined o (.kstr s) hnull]
  · intro hd
    have hc : (isDeepKey s && isNullish (getDirect o (.kstr s))) = false := by
      simp [hd]
    simp [has, hc]

/-- Witness for `has_normalization_policy`: the flat key `"a.b"` with the
defined value 1 is found by the direct lookup. -/
theorem has_normalization_policy_inst :
    isNullish (getDirect (JSVal.obj [(.inl "a.b", .num 1)]) (.kstr "a.b")) = false
    ∧ has (JSVal.obj [(.inl "a.b", .num 1)]) (.single (.kstr "a.b")) = .ok true := by
  refine ⟨rfl, ?_⟩
  exact ((has_normalization_policy (JSVal.obj [(.inl "a.b", .num 1)]) "a.b" [] 0 0).2.2.1
    rfl).2

/-- C4 counterexample: `"a.b"` is a deep key, yet on an object with the flat
own property `"a.b"` holding the defined value 1, `has(o, "a.b")` is true
while `has(o, toPath "a.b") = has(o, ['a','b'])` is false, so tokenizing
first does change the result. -/
theorem has_toPath_disagreement :
    isDeepKey "a.b" = true
    ∧ toPath "a.b" = .ok [.kstr "a", .kstr "b"]
    ∧ has (JSVal.obj [(.inl "a.b", .num 1)]) (.single (.kstr "a.b")) = .ok true
    ∧ has (JSVal.obj [(.inl "a.b", .num 1)]) (.seq [.kstr "a", .kstr "b"]) = .ok false :=
  ⟨rfl, rfl, rfl, rfl⟩

/-- C4 amended: for every object `o` and deep string key `p` whose direct
lookup `o[p]` is nullish, `has o p` equals `has o (toPath p)` (and a
tokenizer failure propagates identically on both sides). -/
theorem has_toPath_agreement (o : JSVal) (s : String)
    (h1 : isDeepKey s = true) (h2 : isNullish (getDirect o (.kstr s)) = true) :
    has o (.single (.kstr s)) = (toPath s).bind fun ks => has o (.seq ks) := by
  have hc : (isDeepKey s && isNullish (getDirect o (.kstr s))) = true := by
    simp [h1, h2]
  simp only [has, hc, if_true]
  cases toPath s with
  | error e => rfl
  | ok ks => rfl

/-- Witness for `has_toPath_agreement` on the empty object and key `"a.b"`. -/
theorem has_toPath_agreement_inst :
    isDeepKey "a.b" = true
    ∧ isNullish (getDirect (JSVal.obj []) (.kstr "a.b")) = true
    ∧ has (JSVal.obj []) (.single (.kstr "a.b"))
        = (toPath "a.b").bind fun ks => has (JSVal.obj []) (.seq ks) :=
  ⟨rfl, rfl, has_toPath_agreement (JSVal.obj []) "a.b" rfl rfl⟩

/-- C5 counterexample: on a malformed deep string path (unterminated
bracket) whose direct lookup is nullish, `has` propagates the tokenizer's
ParseError instead of returning a boolean. -/
theorem has_malformed_path_error :
    has (JSVal.obj []) (.single (.kstr "a["))
      = .error (.parse "unterminated bracket segment") := rfl

/-- C5 amended: `has` returns a boolean for every path whose tokenization
succeeds when tokenization is actually required — the tokenizer only runs
for a string path that is a deep key whose direct lookup is nullish, so key
sequences, single non-string keys, non-deep string keys, and
directly-defined string keys (even malformed ones) are covered
unconditionally; the empty normalized sequence yields false, and a nullish
target can only ever yield false. -/
theorem has_total_on_wellformed (o : JSVal) (p : PathArg)
    (hw : ∀ s, p = .single (.kstr s) → isDeepKey s = true →
      isNullish (getDirect o (.kstr s)) = true → ∃ ks, toPath s = .ok ks) :
    (∃ b, has o p = .ok b)
    ∧ has o (.seq []) = .ok false
    ∧ (isNullish o = true → ∀ b, has o p = .ok b → b = false) := by
  have hshape : ∃ b, has o p = .ok b ∧ ∃ ks, b = hasPath o ks := by
    cases p with
    | seq ks => exact ⟨hasPath o ks, rfl, ks, rfl⟩
    | single k =>
      cases k with
      | kstr s =>
        by_cases hc : (isDeepKey s && isNullish (getDirect o (.kstr s))) = true
        · have hparts := Bool.and_eq_true_iff.mp hc
          obtain ⟨ks, hks⟩ := hw s rfl hparts.1 hparts.2
          refine ⟨hasPath o ks, ?_, ks, rfl⟩
          simp only [has, hc, if_true, hks]
        · have hc2 : (isDeepKey s && isNullish (getDirect o (.kstr s))) = false := by
            simpa using hc
          refine ⟨hasPath o [.kstr s], ?_, [.kstr s], rfl⟩
          simp only [has, hc2, Bool.false_eq_true, if_false]
      | knum n => exact ⟨hasPath o [.knum n], rfl, [.knum n], rfl⟩
      | ksym i => exact ⟨hasPath o [.ksym i], rfl, [.ksym i], rfl⟩
  obtain ⟨b, hb, ks, hbks⟩ := hshape
  refine ⟨⟨b, hb⟩, rfl, ?_⟩
  intro ho b2 hb2
  rw [hb] at hb2
  cases hb2
  rw [hbks, hasPath_nullish o ks ho]

/-- Witness for `has_total_on_wellformed`, exercising both shapes of the
hypothesis: the malformed key `"a["` stored as a directly-defined flat own
property never reaches the tokenizer, so the theorem applies vacuously and
`has` returns a boolean; and the well-formed deep key `"a.b"` on the null
target resolves to `.ok false`. -/
theorem has_total_on_wellformed_inst :
    (∃ b, has (JSVal.obj [(.inl "a[", .num 1)]) (.single (.kstr "a[")) = .ok b)
    ∧ has (JSVal.obj [(.inl "a[", .num 1)]) (.single (.kstr "a[")) = .ok true
    ∧ (∃ b, has JSVal.null (.single (.kstr "a.b")) = .ok b)
    ∧ (∀ b, has JSVal.null (.single (.kstr "a.b")) = .ok b → b = false) := by
  have hdir := has_total_on_wellformed (JSVal.obj [(.inl "a[", .num 1)])
    (.single (.kstr "a["))
    (fun s hs hd hn => by
      cases hs
      exact absurd hn (by decide))
  have hnull := has_total_on_wellformed JSVal.null (.single (.kstr "a.b"))
    (fun s hs hd hn => by
      cases hs
      exact ⟨[.kstr "a", .kstr "b"], rfl⟩)
  exact ⟨hdir.1, rfl, hnull.1, hnull.2.2 rfl⟩

/-- C3 counterexample: a member that is defined but neither nullish nor
callable (the number 42) makes `invoke` raise a TypeError — `(42).apply` is
not a function — instead of returning `undefined`. -/
theorem invoke_noncallable_member_throws :
    getPath (JSVal.obj [(.inl "a", .num 42)]) [.kstr "a"] .undefined = .num 42
    ∧ invoke (JSVal.obj [(.inl "a", .num 42)]) (.single (.kstr "a")) []
        = .error (.typeError "func.apply is not a function") :=
  ⟨rfl, rfl⟩

/-- C3 amended: for every non-null object and resolved key sequence, a
nullish resolved parent yields `undefined`, a nullish member yields
`undefined`, a callable member is applied with the parent as receiver and
any error the callee raises propagates unmodified (no catching, no
wrapping); a member that is defined but not callable raises a TypeError. -/
theorem invoke_member_dispatch (o : JSVal) (ks : List JSKey) (args : List JSVal) :
    (isNullish o = false → invoke o (.seq ks) args = invokeImpl o ks (flat1 args))
    ∧ (isNullish (parentOf o ks) = true → invokeImpl o ks (flat1 args) = .ok .undefined)
    ∧ (isNullish (parentOf o ks) = false → isNullish (memberOf o ks) = true →
        invokeImpl o ks (flat1 args) = .ok .undefined)
    ∧ (∀ f props, isNullish (parentOf o ks) = false → memberOf o ks = .fn f props →
        invokeImpl o ks (flat1 args) = callFn f (parentOf o ks) (flat1 args))
    ∧ (∀ f props e, isNullish (parentOf o ks) = false → memberOf o ks = .fn f props →
        callFn f (parentOf o ks) (flat1 args) = .error e →
        invokeImpl o ks (flat1 args) = .error e) := by
  refine ⟨?_, ?_, ?_, ?_, ?_⟩
  · intro ho
    simp [invoke, invokeCore, ho]
  · intro hp
    simp [invokeImpl, hp]
  · intro hp hm
    cases hmv : memberOf o ks with
    | undefined => simp [invokeImpl, hp, hmv, applyMember]
    | null => simp [invokeImpl, hp, hmv, applyMember]
    | bool b => rw [hmv] at hm; simp [isNullish] at hm
    | num n => rw [hmv] at hm; simp [isNullish] at hm
    | str s => rw [hmv] at hm; simp [isNullish] at hm
    | sym i => rw [hmv] at hm; simp [isNullish] at hm
    | obj fields => rw [hmv] at hm; simp [isNullish] at hm
    | arr es => rw [hmv] at hm; simp [isNullish] at hm
    | args es => rw [hmv] at hm; simp [isNullish] at hm
    | fn f props => rw [hmv] at hm; simp [isNullish] at hm
  · intro f props hp hm
    simp [invokeImpl, hp, hm, applyMember]
  · intro f props e hp hm hc
    simp [invokeImpl, hp, hm, applyMember, hc]

/-- Object with a member that throws, for the `invoke` dispatch witness. -/
def oRaise : JSVal := .obj [(.inl "a", .fn (.raises 7) [])]

/-- Witness for `invoke_member_dispatch`: a callable member that throws the
value 7 makes `invoke` propagate exactly that error. -/
theorem invoke_member_dispatch_inst :
    isNullish oRaise = false
    ∧ isNullish (parentOf oRaise [.kstr "a"]) = false
    ∧ memberOf oRaise [.kstr "a"] = .fn (.raises 7) []
    ∧ invoke oRaise (.seq [.kstr "a"]) [] = .error (.thrown 7) := by
  refine ⟨rfl, rfl, rfl, ?_⟩
  have h := invoke_member_dispatch oRaise [.kstr "a"] []
  rw [h.1 rfl]
  exact h.2.2.2.2 (.raises 7) [] (.thrown 7) rfl rfl rfl

/-- Nested object whose member `a.b` adds its two arguments. -/
def objAB : JSVal := .obj [(.inl "a", .obj [(.inl "b", .fn .add2 [])])]

/-- Object whose member `r` returns its received argument list. -/
def objR : JSVal := .obj [(.inl "r", .fn .retArgs [])]

/-- C6: `invoke` flattens its rest arguments exactly one level before the
call: the body runs on `flat1 args`, a nested array inside an argument
array is spliced once and no deeper; in particular
`invoke({a: {b: (x,y)=>x+y}}, 'a.b', [1,2])` passes 1 and 2 separately and
returns 3, and `invoke({}, 'a.b', [])` returns `undefined` without
throwing. -/
theorem invoke_flattens_once :
    (∀ (o : JSVal) (p : PathArg) (args : List JSVal),
        invoke o p args = invokeCore o p (flat1 args))
    ∧ flat1 [.arr [some (.num 1), some (.arr [some (.num 2), some (.num 3)])]]
        = [.num 1, .arr [some (.num 2), some (.num 3)]]
    ∧ invoke objAB (.single (.kstr "a.b")) [.arr [some (.num 1), some (.num 2)]]
        = .ok (.num 3)
    ∧ invoke (.obj []) (.single (.kstr "a.b")) [.arr []] = .ok .undefined
    ∧ invoke objR (.single (.kstr "r"))
        [.arr [some (.num 1), some (.arr [some (.num 2), some (.num 3)])]]
        = .ok (.arr [some (.num 1), some (.arr [some (.num 2), some (.num 3)])]) :=
  ⟨fun _ _ _ => rfl, rfl, rfl, rfl, rfl⟩

/-- A function value carrying the flat own property `"a.b"`, itself
callable. -/
def fnObj : JSVal := .fn .retThis [(.inl "a.b", .fn .add2 [])]

/-- C7 counterexample: on a function target (non-null but not of object
type) owning the flat key `"a.b"`, `invoke` does NOT take the single-token
branch: it tokenizes and returns `undefined`, while the single-token
treatment the claim prescribes would have called the member and returned
3. -/
theorem invoke_string_policy_object_only :
    isNullish fnObj = false
    ∧ isTypeofObject fnObj = false
    ∧ hasOwn fnObj (.kstr "a.b") = true
    ∧ invoke fnObj (.single (.kstr "a.b")) [.arr [some (.num 1), some (.num 2)]]
        = .ok .undefined
    ∧ invokeImpl fnObj [.kstr "a.b"] (flat1 [.arr [some (.num 1), some (.num 2)]])
        = .ok (.num 3) :=
  ⟨rfl, rfl, rfl, rfl, rfl⟩

/-- C7 amended: for a non-null target, a string path that is an own property
of the target is treated as a single token only when the target is of object
type (`typeof object === "object"`); otherwise — for non-object targets such
as functions, or when the string is not an own property — the string is
tokenized via `toPath`. -/
theorem invoke_string_policy (o : JSVal) (s : String) (args : List JSVal)
    (h0 : isNullish o = false) :
    (isTypeofObject o = true → hasOwn o (.kstr s) = true →
        invoke o (.single (.kstr s)) args = invokeImpl o [.kstr s] (flat1 args))
    ∧ ((isTypeofObject o = false ∨ hasOwn o (.kstr s) = false) →
        invoke o (.single (.kstr s)) args
          = ((toPath s).bind fun ks => invokeImpl o ks (flat1 args))) := by
  constructor
  · intro ht hw
    simp [invoke, invokeCore, h0, ht, hw]
  · intro hor
    have hc : (isTypeofObject o && hasOwn o (.kstr s)) = false := by
      rcases hor with h | h <;> simp [h]
    simp only [invoke, invokeCore, h0, Bool.false_eq_true, if_false, hc]
    cases toPath s with
    | error e => rfl
    | ok ks => rfl

/-- Witness for `invoke_string_policy`: an object-typed target owning the
flat key `"a.b"` takes the single-token branch. -/
theorem invoke_string_policy_inst :
    isNullish (JSVal.obj [(.inl "a.b", .fn .add2 [])]) = false
    ∧ isTypeofObject (JSVal.obj [(.inl "a.b", .fn .add2 [])]) = true
    ∧ hasOwn (JSVal.obj [(.inl "a.b", .fn .add2 [])]) (.kstr "a.b") = true
    ∧ invoke (JSVal.obj [(.inl "a.b", .fn .add2 [])]) (.single (.kstr "a.b"))
        [.arr [some (.num 1), some (.num 2)]]
        = invokeImpl (JSVal.obj [(.inl "a.b", .fn .add2 [])]) [.kstr "a.b"]
            (flat1 [.arr [some (.num 1), some (.num 2)]]) := by
  refine ⟨rfl, rfl, rfl, ?_⟩
  exact (invoke_string_policy (JSVal.obj [(.inl "a.b", .fn .add2 [])]) "a.b"
    [.arr [some (.num 1), some (.num 2)]] rfl).1 rfl rfl

/-- C8: before the member lookup, `invokeImpl` normalizes the last token:
a numeric key (whose primitive value under `valueOf` is a number) goes
through `toKey` to its canonical index-key string; every other key is
coerced by `String(...)`; and the member is looked up on the parent under
exactly that normalized key. -/
theorem invoke_last_key_normalization (o : JSVal) (ks : List JSKey) (args : List JSVal)
    (h : isNullish (parentOf o ks) = false) :
    invokeImpl o ks args = applyMember (memberOf o ks) (parentOf o ks) args
    ∧ memberOf o ks
        = getPath (parentOf o ks) [.kstr (normalizeLast ks.getLast?)] .undefined
    ∧ (∀ n, ks.getLast? = some (.knum n) → normalizeLast ks.getLast? = toKey n)
    ∧ (∀ s, ks.getLast? = some (.kstr s) → normalizeLast ks.getLast? = s)
    ∧ (∀ i, ks.getLast? = some (.ksym i) → normalizeLast ks.getLast? = symToString i) := by
  refine ⟨by simp [invokeImpl, h], rfl, ?_, ?_, ?_⟩ <;>
    intro x hx <;> rw [hx] <;> rfl

/-- Witness for `invoke_last_key_normalization`: the numeric last token 3 is
normalized to the index-key string `"3"`. -/
theorem invoke_last_key_normalization_inst :
    isNullish (parentOf (JSVal.obj []) [.knum 3]) = false
    ∧ normalizeLast (List.getLast? [JSKey.knum 3]) = toKey 3
    ∧ toKey 3 = "3" := by
  refine ⟨rfl, ?_, rfl⟩
  exact (invoke_last_key_normalization (JSVal.obj []) [.knum 3] [] rfl).2.2.1 3 rfl

/-- C9: neither `has` nor `invoke` writes to the heap holding the target
structure — the heap after a call equals the heap before it — and hence
re-running the same call against the target left by a previous identical
call yields the identical result (no hidden state across calls). -/
theorem core_readonly_and_idempotent (h : Heap) (o : HVal) (p : PathArg) (a : List HVal) :
    (hasH h o p).2 = h
    ∧ (invokeH h o p a).2 = h
    ∧ (hasH (hasH h o p).2 o p).1 = (hasH h o p).1
    ∧ (invokeH (invokeH h o p a).2 o p a).1 = (invokeH h o p a).1 := by
  refine ⟨hasH_frame h o p, invokeH_frame h o p a, ?_, ?_⟩
  · rw [hasH_frame h o p]
  · rw [invokeH_frame h o p a]

/-- Object owning the literal key `"undefined"`, whose value returns its
receiver. -/
def objU : JSVal := .obj [(.inl "undefined", .fn .retThis [])]

/-- C10: `invoke(object, [])` with the empty key sequence does not simply
return `undefined`: the missing last token is coerced by `String(...)` to
`"undefined"`, the parent defaults to the object itself, and the member is
looked up under the literal key `"undefined"` — an own property
`"undefined"` holding a function is invoked with the object as receiver. -/
theorem invoke_empty_path_undefined_key (o : JSVal) (args : List JSVal)
    (h : isNullish o = false) :
    normalizeLast (List.getLast? ([] : List JSKey)) = "undefined"
    ∧ parentOf o [] = o
    ∧ invoke o (.seq []) args
        = applyMember (getPath o [.kstr "undefined"] .undefined) o (flat1 args)
    ∧ (∀ f props, getPath o [.kstr "undefined"] .undefined = .fn f props →
        invoke o (.seq []) args = callFn f o (flat1 args)) := by
  have hp : isNullish (parentOf o []) = false := h
  refine ⟨rfl, rfl, ?_, ?_⟩
  · simp only [invoke, invokeCore, invokeImpl, h, hp, Bool.false_eq_true, if_false]
    rfl
  · intro f props hf
    have hm : memberOf o [] = .fn f props := hf
    simp only [invoke, invokeCore, invokeImpl, h, hp, hm, Bool.false_eq_true, if_false]
    rfl

/-- Witness for `invoke_empty_path_undefined_key`: the own property
`"undefined"` of `objU` is called with `objU` as receiver, so the call
returns `objU` itself. -/
theorem invoke_empty_path_undefined_key_inst :
    isNullish objU = false
    ∧ getPath objU [.kstr "undefined"] .undefined = .fn .retThis []
    ∧ invoke objU (.seq []) [] = .ok objU := by
  refine ⟨rfl, rfl, ?_⟩
  rw [(invoke_empty_path_undefined_key objU [] rfl).2.2.2 .retThis [] rfl]
  rfl

end EsToolkit
